import Mathlib

/-!
Shallow embedding of the version and compaction-planning core of
db/version_set.cc (leveldb 1.9.0), together with proofs of the
properties claimed about it.

Modelling conventions:
* An internal key is a pair of a user key and the 8-byte
  (sequence << 8 | type) suffix.  The internal-key comparator orders by
  user key ascending, then by the suffix descending; only the order on
  user keys matters to the code under study, so user keys are modelled
  as naturals with their usual order.
* NULL begin/end pointers are modelled as `Option`.
* C++ `assert` is modelled by returning `none` (the process aborts, so
  no value is produced).
* Loops whose termination is not structural are given an explicit fuel
  that provably dominates the number of iterations, so that every
  definition stays executable by the kernel.
-/

namespace VersionSetModel

/-- An internal key: user key plus the packed (sequence, type) suffix. -/
structure InternalKey where
  user : Nat
  seqtype : Nat
  deriving DecidableEq, Repr

instance : Inhabited InternalKey := ⟨⟨0, 0⟩⟩

/-- The internal-key comparator (InternalKeyComparator::Compare): user keys
ascending, then the (sequence, type) suffix descending.  Returns a
negative / zero / positive integer like the C++ comparator. -/
def icmpCmp (a b : InternalKey) : Int :=
  if a.user < b.user then -1
  else if b.user < a.user then 1
  else if b.seqtype < a.seqtype then -1
  else if a.seqtype < b.seqtype then 1
  else 0

/-- Strict order induced by the internal-key comparator. -/
def ikLt (a b : InternalKey) : Prop := icmpCmp a b < 0

instance (a b : InternalKey) : Decidable (ikLt a b) :=
  inferInstanceAs (Decidable (icmpCmp a b < 0))

theorem ikLt_iff (a b : InternalKey) :
    ikLt a b ↔ a.user < b.user ∨ (a.user = b.user ∧ b.seqtype < a.seqtype) := by
  obtain ⟨au, asq⟩ := a
  obtain ⟨bu, bsq⟩ := b
  simp only [ikLt, icmpCmp]
  split_ifs <;> simp <;> omega

theorem ikLt_trans {a b c : InternalKey} (h1 : ikLt a b) (h2 : ikLt b c) :
    ikLt a c := by
  rw [ikLt_iff] at h1 h2 ⊢
  omega

theorem icmpCmp_nonneg_iff (a b : InternalKey) :
    0 ≤ icmpCmp a b ↔ ¬ ikLt a b := by
  rw [ikLt_iff]
  obtain ⟨au, asq⟩ := a
  obtain ⟨bu, bsq⟩ := b
  simp only [icmpCmp]
  split_ifs <;> simp <;> omega

theorem icmpCmp_le_zero_iff (a b : InternalKey) :
    icmpCmp a b ≤ 0 ↔ ikLt a b ∨ a = b := by
  rw [ikLt_iff]
  obtain ⟨au, asq⟩ := a
  obtain ⟨bu, bsq⟩ := b
  simp only [icmpCmp, InternalKey.mk.injEq]
  split_ifs <;> simp <;> omega

theorem icmpCmp_pos_iff (a b : InternalKey) :
    0 < icmpCmp a b ↔ ikLt b a := by
  rw [ikLt_iff]
  obtain ⟨au, asq⟩ := a
  obtain ⟨bu, bsq⟩ := b
  simp only [icmpCmp]
  split_ifs <;> simp <;> omega

/-- Metadata of one SSTable file (struct FileMetaData). -/
structure FileMetaData where
  number : Nat
  file_size : Nat
  smallest : InternalKey
  largest : InternalKey
  allowed_seeks : Nat
  deriving DecidableEq, Repr

instance : Inhabited FileMetaData := ⟨⟨0, 0, default, default, 0⟩⟩

/-- A file's bounds are inclusive bounds of its entries, so
smallest ≤ largest in the internal-key order. -/
def wfFile (f : FileMetaData) : Prop := icmpCmp f.smallest f.largest ≤ 0

instance (f : FileMetaData) : Decidable (wfFile f) :=
  inferInstanceAs (Decidable (icmpCmp f.smallest f.largest ≤ 0))

/-- Number of levels.  Declared in the configuration header; the source
asserts `config::kNumLevels == 7` (LevelSummary) and the spec fixes L = 7. -/
def kNumLevels : Nat := 7

/-- Modelled from the spec: `config::kL0_CompactionTrigger` lives in the
configuration header, which is not part of this dump; the spec gives the
value 4. -/
def kL0_CompactionTrigger : Nat := 4

/-- kTargetFileSize = 2 * 1048576. -/
def kTargetFileSize : Nat := 2 * 1048576

/-- kMaxGrandParentOverlapBytes = 10 * kTargetFileSize. -/
def kMaxGrandParentOverlapBytes : Nat := 10 * kTargetFileSize

/-- kExpandedCompactionByteSizeLimit = 25 * kTargetFileSize. -/
def kExpandedCompactionByteSizeLimit : Nat := 25 * kTargetFileSize

/-- MaxBytesForLevel: 10 MiB for levels 0 and 1, multiplied by 10 for each
further level (the while loop in the source). -/
def maxBytesForLevel : Nat → ℚ
  | 0 => 10 * 1048576
  | 1 => 10 * 1048576
  | n + 2 => 10 * maxBytesForLevel (n + 1)

/-- MaxFileSizeForLevel returns kTargetFileSize at every level. -/
def maxFileSizeForLevel (_level : Nat) : Nat := kTargetFileSize

/-- TotalFileSize: the sum of the file sizes. -/
def totalFileSize (files : List FileMetaData) : Nat :=
  (files.map (·.file_size)).sum

/-- A Version: for each level, the ordered sequence of files. -/
structure Version where
  files : List (List FileMetaData)
  deriving DecidableEq, Repr

/-- Files of one level of a Version (`files_[level]`). -/
def levelFiles (v : Version) (level : Nat) : List FileMetaData :=
  v.files.getD level []

/-- The binary-search loop of FindFile.  `fuel` dominates `right - left`,
which shrinks at every iteration, so the base case is never reached when
the function is used via `findFile`. -/
def findFileGo (files : List FileMetaData) (key : InternalKey) :
    Nat → Nat → Nat → Nat
  | 0, _, right => right
  | fuel + 1, left, right =>
    if left < right then
      if icmpCmp (files.getD ((left + right) / 2) default).largest key < 0 then
        findFileGo files key fuel ((left + right) / 2 + 1) right
      else
        findFileGo files key fuel left ((left + right) / 2)
    else right

/-- FindFile: smallest index whose file's largest key is ≥ key, found by
binary search over `[0, files.size())`. -/
def findFile (files : List FileMetaData) (key : InternalKey) : Nat :=
  findFileGo files key (files.length + 1) 0 files.length

/-- Sorted-and-disjoint file list: each file's largest key is strictly
below the next file's smallest key. -/
def disjointSorted (files : List FileMetaData) : Prop :=
  List.Chain' (fun a b => ikLt a.largest b.smallest) files

/-- Executable check of `disjointSorted`. -/
def disjointSortedB : List FileMetaData → Bool
  | [] => true
  | [_] => true
  | a :: b :: rest =>
    decide (ikLt a.largest b.smallest) && disjointSortedB (b :: rest)

theorem disjointSortedB_iff :
    ∀ l, disjointSortedB l = true ↔ disjointSorted l
  | [] => by simp [disjointSortedB, disjointSorted]
  | [a] => by simp [disjointSortedB, disjointSorted]
  | a :: b :: rest => by
    rw [disjointSorted, List.chain'_cons]
    rw [show disjointSortedB (a :: b :: rest) =
      (decide (ikLt a.largest b.smallest) && disjointSortedB (b :: rest))
      from rfl]
    rw [Bool.and_eq_true, decide_eq_true_iff,
      disjointSortedB_iff (b :: rest)]
    exact Iff.rfl

instance (files : List FileMetaData) : Decidable (disjointSorted files) :=
  decidable_of_iff _ (disjointSortedB_iff files)

theorem getD_eq_get (l : List FileMetaData) (m : Nat) (hm : m < l.length) :
    l.getD m default = l.get ⟨m, hm⟩ := by
  simp [List.getD_eq_getElem?_getD, List.getElem?_eq_getElem hm,
    List.get_eq_getElem]

theorem largest_mono (files : List FileMetaData)
    (hwf : ∀ f ∈ files, wfFile f) (hd : disjointSorted files) :
    ∀ j k, j < k → k < files.length →
      ikLt (files.getD j default).largest (files.getD k default).largest := by
  intro j k hjk hk
  have hstep : ∀ i, i + 1 < files.length →
      ikLt (files.getD i default).largest (files.getD (i + 1) default).largest := by
    intro i hi
    have hchain := (List.chain'_iff_get.mp hd) i (by omega)
    have hmem : files.get ⟨i + 1, by omega⟩ ∈ files := files.get_mem _ _
    have hwf1 := hwf _ hmem
    rw [getD_eq_get files i (by omega), getD_eq_get files (i + 1) hi]
    rcases (icmpCmp_le_zero_iff _ _).mp hwf1 with h | h
    · exact ikLt_trans hchain h
    · rw [← h]; exact hchain
  clear hd
  induction k with
  | zero => omega
  | succ n ih =>
    rcases Nat.lt_or_ge j n with h | h
    · exact ikLt_trans (ih h (by omega)) (hstep n hk)
    · have : j = n := by omega
      subst this
      exact hstep j hk

theorem findFileGo_spec (files : List FileMetaData) (key : InternalKey)
    (hwf : ∀ f ∈ files, wfFile f) (hd : disjointSorted files) :
    ∀ fuel left right, left ≤ right → right ≤ files.length →
      right - left ≤ fuel →
      (∀ j, j < left → icmpCmp (files.getD j default).largest key < 0) →
      (∀ j, right ≤ j → j < files.length →
        ¬ icmpCmp (files.getD j default).largest key < 0) →
      let r := findFileGo files key fuel left right
      r ≤ files.length ∧
        (∀ j, j < r → icmpCmp (files.getD j default).largest key < 0) ∧
        (∀ j, r ≤ j → j < files.length →
          ¬ icmpCmp (files.getD j default).largest key < 0) := by
  intro fuel
  induction fuel with
  | zero =>
    intro left right hlr hrlen hfuel hlo hhi
    have : left = right := by omega
    subst this
    simp only [findFileGo]
    refine ⟨hrlen, ?_, hhi⟩
    intro j hj
    exact hlo j hj
  | succ n ih =>
    intro left right hlr hrlen hfuel hlo hhi
    simp only [findFileGo]
    split_ifs with hlt hcmp
    · -- key at mid.largest < target: search (mid+1, right]
      have hmidlt : (left + right) / 2 < right := by omega
      refine ih ((left + right) / 2 + 1) right (by omega) hrlen (by omega)
        ?_ hhi
      intro j hj
      rcases Nat.lt_or_ge j left with h | h
      · exact hlo j h
      · rcases Nat.lt_or_ge j ((left + right) / 2) with h2 | h2
        · have hm := largest_mono files hwf hd j ((left + right) / 2) h2
            (by omega)
          exact ikLt_trans hm hcmp
        · have : j = (left + right) / 2 := by omega
          subst this
          exact hcmp
    · -- key ≤ mid.largest: search [left, mid)
      have hmidlt : (left + right) / 2 < right := by omega
      have hmidge : left ≤ (left + right) / 2 := by omega
      refine ih left ((left + right) / 2) hmidge (by omega) (by omega)
        hlo ?_
      intro j hj hjlen
      rcases Nat.eq_or_lt_of_le hj with h2 | h2
      · rw [← h2]; exact hcmp
      · intro hcon
        have hm := largest_mono files hwf hd ((left + right) / 2) j h2 hjlen
        exact hcmp (ikLt_trans hm hcon)
    · have : left = right := by omega
      subst this
      exact ⟨hrlen, fun j hj => hlo j hj, hhi⟩

/-- Claim C3: on a disjoint sorted file list, FindFile returns the smallest
index i with files[i].largest ≥ key; when no file qualifies it returns the
length of the list. -/
theorem claim_C3_findFile (files : List FileMetaData) (key : InternalKey)
    (hwf : ∀ f ∈ files, wfFile f) (hd : disjointSorted files) :
    findFile files key ≤ files.length ∧
      (∀ j, j < findFile files key →
        icmpCmp (files.getD j default).largest key < 0) ∧
      (∀ j, findFile files key ≤ j → j < files.length →
        0 ≤ icmpCmp (files.getD j default).largest key) := by
  have h := findFileGo_spec files key hwf hd (files.length + 1) 0 files.length
    (by omega) (by omega) (by omega) (by omega) (by omega)
  refine ⟨h.1, h.2.1, ?_⟩
  intro j h1 h2
  have := h.2.2 j h1 h2
  omega

/-- Witness for C3 at a concrete sorted file list. -/
def c3Files : List FileMetaData :=
  [⟨1, 10, ⟨1, 9⟩, ⟨3, 5⟩, 0⟩, ⟨2, 10, ⟨4, 9⟩, ⟨6, 5⟩, 0⟩,
   ⟨3, 10, ⟨8, 9⟩, ⟨9, 5⟩, 0⟩]

theorem claim_C3_findFile_witness :
    (∀ f ∈ c3Files, wfFile f) ∧ disjointSorted c3Files ∧
      (findFile c3Files ⟨5, 7⟩ ≤ c3Files.length ∧
        (∀ j, j < findFile c3Files ⟨5, 7⟩ →
          icmpCmp (c3Files.getD j default).largest ⟨5, 7⟩ < 0) ∧
        (∀ j, findFile c3Files ⟨5, 7⟩ ≤ j → j < c3Files.length →
          0 ≤ icmpCmp (c3Files.getD j default).largest ⟨5, 7⟩)) :=
  ⟨by decide, by decide,
    claim_C3_findFile c3Files ⟨5, 7⟩ (by decide) (by decide)⟩

/-! ### Version::GetOverlappingInputs -/

/-- "f is completely before specified range": the file's largest user key
is below the (non-null) lower bound. -/
def fileBeforeRange (lo : Option Nat) (f : FileMetaData) : Bool :=
  match lo with
  | some b => decide (f.largest.user < b)
  | none => false

/-- "f is completely after specified range": the file's smallest user key
is above the (non-null) upper bound. -/
def fileAfterRange (hi : Option Nat) (f : FileMetaData) : Bool :=
  match hi with
  | some e => decide (e < f.smallest.user)
  | none => false

/-- The added file extends the window at the low end
(file_start < user_begin). -/
def extendsLow (lo : Option Nat) (f : FileMetaData) : Bool :=
  match lo with
  | some b => decide (f.smallest.user < b)
  | none => false

/-- The added file extends the window at the high end
(file_limit > user_end). -/
def extendsHigh (hi : Option Nat) (f : FileMetaData) : Bool :=
  match hi with
  | some e => decide (e < f.largest.user)
  | none => false

/-- One scan over the level's files with the current window.  Returns
`Sum.inl` with the widened window when a just-added level-0 file extends
the window (the C++ code clears `inputs` and restarts with `i = 0`), and
`Sum.inr` with the collected files when the scan completes. -/
def gOIPass (level : Nat) (lo hi : Option Nat) :
    List FileMetaData → Sum (Option Nat × Option Nat) (List FileMetaData)
  | [] => Sum.inr []
  | f :: rest =>
    if fileBeforeRange lo f then gOIPass level lo hi rest
    else if fileAfterRange hi f then gOIPass level lo hi rest
    else if level == 0 && extendsLow lo f then
      Sum.inl (some f.smallest.user, hi)
    else if level == 0 && extendsHigh hi f then
      Sum.inl (lo, some f.largest.user)
    else
      match gOIPass level lo hi rest with
      | Sum.inl w => Sum.inl w
      | Sum.inr res => Sum.inr (f :: res)

/-- Restart loop of GetOverlappingInputs.  The fuel dominates the number
of restarts (each restart strictly widens the window, see
`gOIMeasure_decreases`), so the `0` case is never reached from
`getOverlappingInputs`. -/
def gOIGo (level : Nat) (files : List FileMetaData) :
    Nat → Option Nat × Option Nat → List FileMetaData
  | 0, _ => []
  | fuel + 1, w =>
    match gOIPass level w.1 w.2 files with
    | Sum.inl w2 => gOIGo level files fuel w2
    | Sum.inr res => res

/-- GetOverlappingInputs: all files of `level` whose user-key range
intersects `[bk, ek]` (null bound = unbounded), with the level-0
restart-and-widen behaviour. -/
def getOverlappingInputs (v : Version) (level : Nat)
    (bk ek : Option InternalKey) : List FileMetaData :=
  gOIGo level (levelFiles v level) (2 * (levelFiles v level).length + 1)
    (bk.map (·.user), ek.map (·.user))

/-- Number of files that would still widen the window: strictly drops at
every restart. -/
def gOIMeasure (files : List FileMetaData) (w : Option Nat × Option Nat) :
    Nat :=
  files.countP (fun f => extendsLow w.1 f) +
    files.countP (fun f => extendsHigh w.2 f)

theorem countP_strict {α : Type} (p q : α → Bool) :
    ∀ (l : List α) (a : α), a ∈ l → p a = false → q a = true →
      (∀ x ∈ l, p x = true → q x = true) →
      l.countP p < l.countP q := by
  intro l
  induction l with
  | nil => intro a ha; simp at ha
  | cons x t ih =>
    intro a ha hp hq hmono
    rw [List.countP_cons, List.countP_cons]
    rcases List.mem_cons.mp ha with h | h
    · subst h
      rw [hp, hq]
      have : t.countP p ≤ t.countP q :=
        List.countP_mono_left (fun x hx => hmono x (List.mem_cons_of_mem _ hx))
      simp
      omega
    · have hlt := ih a h hp hq (fun x hx => hmono x (List.mem_cons_of_mem _ hx))
      have hhead : (if p x = true then 1 else 0) ≤ if q x = true then 1 else 0 := by
        by_cases hx : p x = true
        · rw [hx, hmono x (List.mem_cons_self x t) hx]
        · simp [hx]
      omega

/-- A restart comes from a file of the list that strictly widens the
window on one side and leaves the other side unchanged. -/
theorem gOIPass_inl (level : Nat) (lo hi : Option Nat) :
    ∀ (l : List FileMetaData) (w : Option Nat × Option Nat),
      gOIPass level lo hi l = Sum.inl w →
      level = 0 ∧
        ((∃ f ∈ l, extendsLow lo f = true ∧
            w = (some f.smallest.user, hi)) ∨
          (∃ f ∈ l, extendsHigh hi f = true ∧
            w = (lo, some f.largest.user))) := by
  intro l
  induction l with
  | nil => intro w h; simp [gOIPass] at h
  | cons f rest ih =>
    intro w h
    simp only [gOIPass] at h
    split_ifs at h with h1 h2 h3 h4
    · obtain ⟨hl, hc⟩ := ih w h
      refine ⟨hl, ?_⟩
      rcases hc with ⟨g, hg, hh⟩ | ⟨g, hg, hh⟩
      · exact Or.inl ⟨g, List.mem_cons_of_mem _ hg, hh⟩
      · exact Or.inr ⟨g, List.mem_cons_of_mem _ hg, hh⟩
    · obtain ⟨hl, hc⟩ := ih w h
      refine ⟨hl, ?_⟩
      rcases hc with ⟨g, hg, hh⟩ | ⟨g, hg, hh⟩
      · exact Or.inl ⟨g, List.mem_cons_of_mem _ hg, hh⟩
      · exact Or.inr ⟨g, List.mem_cons_of_mem _ hg, hh⟩
    · rw [Bool.and_eq_true, beq_iff_eq] at h3
      cases h
      exact ⟨h3.1, Or.inl ⟨f, List.mem_cons_self f rest, h3.2, rfl⟩⟩
    · rw [Bool.and_eq_true, beq_iff_eq] at h4
      cases h
      exact ⟨h4.1, Or.inr ⟨f, List.mem_cons_self f rest, h4.2, rfl⟩⟩
    · revert h
      cases hrec : gOIPass level lo hi rest with
      | inl w2 =>
        intro h
        simp only [Sum.inl.injEq] at h
        subst h
        obtain ⟨hl, hc⟩ := ih _ hrec
        refine ⟨hl, ?_⟩
        rcases hc with ⟨g, hg, hh⟩ | ⟨g, hg, hh⟩
        · exact Or.inl ⟨g, List.mem_cons_of_mem _ hg, hh⟩
        · exact Or.inr ⟨g, List.mem_cons_of_mem _ hg, hh⟩
      | inr res => intro h; simp at h

theorem gOIMeasure_decreases (files : List FileMetaData)
    (lo hi : Option Nat) (w : Option Nat × Option Nat)
    (h : gOIPass 0 lo hi files = Sum.inl w) :
    gOIMeasure files w < gOIMeasure files (lo, hi) := by
  obtain ⟨-, hc⟩ := gOIPass_inl 0 lo hi files w h
  rcases hc with ⟨f, hf, hext, hw⟩ | ⟨f, hf, hext, hw⟩
  · subst hw
    unfold gOIMeasure
    dsimp only
    have hlt : files.countP (fun g => extendsLow (some f.smallest.user) g) <
        files.countP (fun g => extendsLow lo g) := by
      obtain ⟨b, hb⟩ : ∃ b, lo = some b := by
        cases lo with
        | none => simp [extendsLow] at hext
        | some b => exact ⟨b, rfl⟩
      subst hb
      simp only [extendsLow, decide_eq_true_eq] at hext
      apply countP_strict _ _ files f hf
      · simp [extendsLow]
      · simp [extendsLow, hext]
      · intro x _ hx
        simp only [extendsLow, decide_eq_true_eq] at hx ⊢
        omega
    omega
  · subst hw
    unfold gOIMeasure
    dsimp only
    have hlt : files.countP (fun g => extendsHigh (some f.largest.user) g) <
        files.countP (fun g => extendsHigh hi g) := by
      obtain ⟨e, he⟩ : ∃ e, hi = some e := by
        cases hi with
        | none => simp [extendsHigh] at hext
        | some e => exact ⟨e, rfl⟩
      subst he
      simp only [extendsHigh, decide_eq_true_eq] at hext
      apply countP_strict _ _ files f hf
      · simp [extendsHigh]
      · simp [extendsHigh, hext]
      · intro x _ hx
        simp only [extendsHigh, decide_eq_true_eq] at hx ⊢
        omega
    omega

/-- With enough fuel, the restart loop ends with a completed pass: the
result of `gOIGo` is the `Sum.inr` result of some (final) window. -/
theorem gOIGo_final (level : Nat) (files : List FileMetaData) :
    ∀ (fuel : Nat) (w : Option Nat × Option Nat),
      gOIMeasure files w < fuel →
      ∃ w2 : Option Nat × Option Nat, gOIPass level w2.1 w2.2 files =
        Sum.inr (gOIGo level files fuel w) := by
  intro fuel
  induction fuel with
  | zero => intro w h; omega
  | succ n ih =>
    intro w hm
    have hunfold : gOIGo level files (n + 1) w =
        match gOIPass level w.1 w.2 files with
        | Sum.inl w2 => gOIGo level files n w2
        | Sum.inr res => res := rfl
    cases hpass : gOIPass level w.1 w.2 files with
    | inl w2 =>
      rw [hunfold, hpass]
      have hzero : level = 0 := (gOIPass_inl level w.1 w.2 files w2 hpass).1
      subst hzero
      have hdec := gOIMeasure_decreases files w.1 w.2 w2 hpass
      rw [Prod.mk.eta] at hdec
      exact ih w2 (by omega)
    | inr res =>
      rw [hunfold, hpass]
      exact ⟨w, by rw [hpass]⟩

theorem gOIMeasure_le (files : List FileMetaData)
    (w : Option Nat × Option Nat) :
    gOIMeasure files w ≤ 2 * files.length := by
  unfold gOIMeasure
  have h1 := List.countP_le_length (fun f => extendsLow w.1 f) (l := files)
  have h2 := List.countP_le_length (fun f => extendsHigh w.2 f) (l := files)
  omega

/-- The result of `getOverlappingInputs` is the `Sum.inr` result of a
completed pass over the level's files. -/
theorem getOverlappingInputs_final (v : Version) (level : Nat)
    (bk ek : Option InternalKey) :
    ∃ w : Option Nat × Option Nat,
      gOIPass level w.1 w.2 (levelFiles v level) =
        Sum.inr (getOverlappingInputs v level bk ek) := by
  unfold getOverlappingInputs
  exact gOIGo_final level (levelFiles v level) _ _
    (Nat.lt_succ_of_le (gOIMeasure_le _ _))

/-- A completed pass returns exactly the files intersecting its window,
and (at level 0) none of the returned files extends the window. -/
theorem gOIPass_inr (level : Nat) (lo hi : Option Nat) :
    ∀ (l res : List FileMetaData),
      gOIPass level lo hi l = Sum.inr res →
      res = l.filter
        (fun f => !fileBeforeRange lo f && !fileAfterRange hi f) ∧
        (level = 0 → ∀ f ∈ res,
          extendsLow lo f = false ∧ extendsHigh hi f = false) := by
  intro l
  induction l with
  | nil =>
    intro res h
    simp only [gOIPass, Sum.inr.injEq] at h
    subst h
    simp
  | cons f rest ih =>
    intro res h
    simp only [gOIPass] at h
    split_ifs at h with h1 h2 h3 h4
    · obtain ⟨hr, hres⟩ := ih res h
      constructor
      · rw [List.filter_cons]
        simp [h1, hr]
      · exact hres
    · obtain ⟨hr, hres⟩ := ih res h
      constructor
      · rw [List.filter_cons]
        simp [h1, h2, hr]
      · exact hres
    · revert h
      cases hrec : gOIPass level lo hi rest with
      | inl w2 => intro h; cases h
      | inr res2 =>
        intro h
        cases h
        obtain ⟨hr, hres⟩ := ih res2 hrec
        constructor
        · rw [List.filter_cons]
          simp only [h1, h2, Bool.not_false, Bool.and_self, if_true]
          rw [hr]
        · intro hl g hg
          rcases List.mem_cons.mp hg with hgf | hgr
          · subst hgf
            subst hl
            simp only [beq_self_eq_true, Bool.true_and] at h3 h4
            exact ⟨Bool.not_eq_true _ ▸ h3, Bool.not_eq_true _ ▸ h4⟩
          · exact hres hl g hgr

/-- Claim C4: at level 0 the set returned by GetOverlappingInputs is
transitively closed under user-key overlap: no level-0 file outside the
returned set overlaps (by user-key range) any file inside the returned
set. -/
theorem claim_C4_getOverlappingInputs_closed (v : Version)
    (bk ek : Option InternalKey) (g f : FileMetaData)
    (hg : g ∈ levelFiles v 0)
    (hgout : g ∉ getOverlappingInputs v 0 bk ek)
    (hf : f ∈ getOverlappingInputs v 0 bk ek) :
    ¬ (g.smallest.user ≤ f.largest.user ∧
        f.smallest.user ≤ g.largest.user) := by
  rintro ⟨hov1, hov2⟩
  obtain ⟨w, hpass⟩ := getOverlappingInputs_final v 0 bk ek
  obtain ⟨hfilter, hnoext⟩ := gOIPass_inr 0 w.1 w.2 _ _ hpass
  -- f is contained in the final window
  obtain ⟨hlowf, hhighf⟩ := hnoext rfl f hf
  -- g does not intersect the final window
  have hgnot : ¬ (!fileBeforeRange w.1 g && !fileAfterRange w.2 g) = true := by
    intro hcon
    exact hgout (hfilter ▸ List.mem_filter.mpr ⟨hg, hcon⟩)
  -- but g overlaps f, which is inside the window: contradiction
  apply hgnot
  simp only [Bool.and_eq_true, Bool.not_eq_true']
  constructor
  · cases hw1 : w.1 with
    | none => simp [fileBeforeRange]
    | some b =>
      rw [hw1] at hlowf
      simp only [extendsLow, decide_eq_false_iff_not, not_lt] at hlowf
      simp only [fileBeforeRange, decide_eq_false_iff_not, not_lt]
      omega
  · cases hw2 : w.2 with
    | none => simp [fileAfterRange]
    | some e =>
      rw [hw2] at hhighf
      simp only [extendsHigh, decide_eq_false_iff_not, not_lt] at hhighf
      simp only [fileAfterRange, decide_eq_false_iff_not, not_lt]
      omega

/-- Concrete version for the C4 witness: two non-overlapping level-0
files, window covering only the second. -/
def c4Version : Version :=
  ⟨[[⟨1, 10, ⟨0, 9⟩, ⟨1, 5⟩, 0⟩, ⟨2, 10, ⟨5, 9⟩, ⟨6, 5⟩, 0⟩],
    [], [], [], [], [], []]⟩

theorem claim_C4_getOverlappingInputs_closed_witness :
    (⟨1, 10, ⟨0, 9⟩, ⟨1, 5⟩, 0⟩ : FileMetaData) ∈ levelFiles c4Version 0 ∧
      (⟨1, 10, ⟨0, 9⟩, ⟨1, 5⟩, 0⟩ : FileMetaData) ∉
        getOverlappingInputs c4Version 0 (some ⟨5, 9⟩) (some ⟨6, 5⟩) ∧
      (⟨2, 10, ⟨5, 9⟩, ⟨6, 5⟩, 0⟩ : FileMetaData) ∈
        getOverlappingInputs c4Version 0 (some ⟨5, 9⟩) (some ⟨6, 5⟩) ∧
      ¬ ((⟨1, 10, ⟨0, 9⟩, ⟨1, 5⟩, 0⟩ : FileMetaData).smallest.user ≤
          (⟨2, 10, ⟨5, 9⟩, ⟨6, 5⟩, 0⟩ : FileMetaData).largest.user ∧
        (⟨2, 10, ⟨5, 9⟩, ⟨6, 5⟩, 0⟩ : FileMetaData).smallest.user ≤
          (⟨1, 10, ⟨0, 9⟩, ⟨1, 5⟩, 0⟩ : FileMetaData).largest.user) :=
  ⟨by decide, by decide, by decide,
    claim_C4_getOverlappingInputs_closed c4Version (some ⟨5, 9⟩)
      (some ⟨6, 5⟩) _ _ (by decide) (by decide) (by decide)⟩

/-! ### VersionSet::Builder -/

/-- BySmallestKey: order by smallest internal key, break ties by file
number. -/
def bySmallestLt (f1 f2 : FileMetaData) : Bool :=
  if icmpCmp f1.smallest f2.smallest ≠ 0 then
    decide (icmpCmp f1.smallest f2.smallest < 0)
  else
    decide (f1.number < f2.number)

/-- Insertion into the Builder's `added_files` set (std::set ordered by
`bySmallestLt`; inserting an equivalent element leaves the set
unchanged). -/
def addedInsert (f : FileMetaData) : List FileMetaData → List FileMetaData
  | [] => [f]
  | g :: rest =>
    if bySmallestLt f g then f :: g :: rest
    else if bySmallestLt g f then g :: addedInsert f rest
    else g :: rest

/-- State of a Builder after applying edits: per level, the numbers of
deleted files and the ordered set of added files. -/
structure BuilderState where
  deleted : List (List Nat)
  added : List (List FileMetaData)
  deriving DecidableEq, Repr

/-- The interleaving of base and added files in the order SaveTo feeds
them to MaybeAddFile: for each added file (in added-set order), first all
base files strictly below it (std::upper_bound on the sorted base), then
the added file itself; finally the remaining base files. -/
def mergeSeq : List FileMetaData → List FileMetaData → List FileMetaData
  | base, [] => base
  | base, a :: as =>
    base.takeWhile (fun b => ! bySmallestLt a b) ++
      a :: mergeSeq (base.dropWhile (fun b => ! bySmallestLt a b)) as

/-- MaybeAddFile.  Deleted files are skipped; at level > 0 and a
non-empty list the appended file must begin strictly after the current
last file's largest key (the assert in the source), otherwise the
process aborts, modelled by `none`. -/
def maybeAddFile (deleted : List Nat) (level : Nat)
    (files : List FileMetaData) (f : FileMetaData) :
    Option (List FileMetaData) :=
  if f.number ∈ deleted then some files
  else if level > 0 ∧ files ≠ [] then
    if icmpCmp (files.getD (files.length - 1) default).largest
        f.smallest < 0 then
      some (files ++ [f])
    else none
  else some (files ++ [f])

/-- Feed a sequence of files through MaybeAddFile. -/
def addFiles (deleted : List Nat) (level : Nat) :
    List FileMetaData → List FileMetaData → Option (List FileMetaData)
  | files, [] => some files
  | files, f :: rest =>
    match maybeAddFile deleted level files f with
    | none => none
    | some files2 => addFiles deleted level files2 rest

/-- SaveTo for one level: merge base and added files in sorted order,
dropping deleted ones, with the level > 0 non-overlap assertion. -/
def saveLevel (level : Nat) (base added : List FileMetaData)
    (deleted : List Nat) : Option (List FileMetaData) :=
  addFiles deleted level [] (mergeSeq base added)

/-- SaveTo across all levels. -/
def buildLevels (base : Version) (b : BuilderState) :
    List Nat → Option (List (List FileMetaData))
  | [] => some []
  | level :: rest =>
    match saveLevel level (levelFiles base level) (b.added.getD level [])
        (b.deleted.getD level []) with
    | none => none
    | some fl =>
      match buildLevels base b rest with
      | none => none
      | some out => some (fl :: out)

/-- VersionSet::Builder::SaveTo: produce the new Version, or abort
(`none`) when the level > 0 non-overlap assertion fails. -/
def saveTo (base : Version) (b : BuilderState) : Option Version :=
  (buildLevels base b (List.range kNumLevels)).map Version.mk

theorem getLast?_eq_getD (l : List FileMetaData) (h : l ≠ []) :
    l.getLast? = some (l.getD (l.length - 1) default) := by
  have hlen : l.length - 1 < l.length := by
    cases l with
    | nil => simp at h
    | cons a t => simp
  rw [List.getLast?_eq_getElem?, List.getElem?_eq_getElem hlen,
    List.getD_eq_getElem?_getD, List.getElem?_eq_getElem hlen]
  rfl

theorem chain_append_last (acc : List FileMetaData) (f : FileMetaData)
    (hc : List.Chain' (fun a b => ikLt a.largest b.smallest) acc)
    (hrel : acc ≠ [] →
      ikLt (acc.getD (acc.length - 1) default).largest f.smallest) :
    List.Chain' (fun a b => ikLt a.largest b.smallest) (acc ++ [f]) := by
  rw [List.chain'_append]
  refine ⟨hc, List.chain'_singleton f, ?_⟩
  intro x hx y hy
  have hne : acc ≠ [] := by
    intro hcon
    subst hcon
    simp at hx
  rw [getLast?_eq_getD acc hne] at hx
  simp only [Option.mem_def, Option.some.injEq] at hx
  simp only [List.head?_cons, Option.mem_def, Option.some.injEq] at hy
  subst hx
  subst hy
  exact hrel hne

theorem addFiles_chain (deleted : List Nat) (level : Nat)
    (hlevel : 1 ≤ level) :
    ∀ (todo acc out : List FileMetaData),
      addFiles deleted level acc todo = some out →
      List.Chain' (fun a b => ikLt a.largest b.smallest) acc →
      List.Chain' (fun a b => ikLt a.largest b.smallest) out := by
  intro todo
  induction todo with
  | nil =>
    intro acc out h hc
    simp only [addFiles, Option.some.injEq] at h
    exact h ▸ hc
  | cons f rest ih =>
    intro acc out h hc
    simp only [addFiles] at h
    revert h
    cases hstep : maybeAddFile deleted level acc f with
    | none => intro h; cases h
    | some acc2 =>
      intro h
      refine ih acc2 out h ?_
      simp only [maybeAddFile] at hstep
      split_ifs at hstep with hdel hne hcmp
      · cases hstep; exact hc
      · cases hstep
        exact chain_append_last acc f hc (fun _ => hcmp)
      · cases hstep
        have haccnil : acc = [] := by
          by_contra hcon
          exact hne ⟨by omega, hcon⟩
        subst haccnil
        exact List.chain'_singleton f

theorem addFiles_subset (deleted : List Nat) (level : Nat) :
    ∀ (todo acc out : List FileMetaData),
      addFiles deleted level acc todo = some out →
      ∀ f ∈ out, f ∈ acc ∨ f ∈ todo := by
  intro todo
  induction todo with
  | nil =>
    intro acc out h f hf
    simp only [addFiles, Option.some.injEq] at h
    exact Or.inl (h ▸ hf)
  | cons g rest ih =>
    intro acc out h f hf
    simp only [addFiles] at h
    revert h
    cases hstep : maybeAddFile deleted level acc g with
    | none => intro h; cases h
    | some acc2 =>
      intro h
      have hacc2 : ∀ x ∈ acc2, x ∈ acc ∨ x = g := by
        intro x hx
        simp only [maybeAddFile] at hstep
        split_ifs at hstep with hdel hne hcmp
        · cases hstep; exact Or.inl hx
        · cases hstep
          rcases List.mem_append.mp hx with h1 | h1
          · exact Or.inl h1
          · simp only [List.mem_singleton] at h1
            exact Or.inr h1
        · cases hstep
          rcases List.mem_append.mp hx with h1 | h1
          · exact Or.inl h1
          · simp only [List.mem_singleton] at h1
            exact Or.inr h1
      rcases ih acc2 out h f hf with h1 | h1
      · rcases hacc2 f h1 with h2 | h2
        · exact Or.inl h2
        · exact Or.inr (h2 ▸ List.mem_cons_self g rest)
      · exact Or.inr (List.mem_cons_of_mem g h1)

theorem mergeSeq_subset :
    ∀ (added base : List FileMetaData) (f : FileMetaData),
      f ∈ mergeSeq base added → f ∈ base ∨ f ∈ added := by
  intro added
  induction added with
  | nil => intro base f h; exact Or.inl (by simpa [mergeSeq] using h)
  | cons a as ih =>
    intro base f h
    simp only [mergeSeq] at h
    rcases List.mem_append.mp h with h1 | h1
    · exact Or.inl ((List.takeWhile_sublist _).mem h1)
    · rcases List.mem_cons.mp h1 with h2 | h2
      · exact Or.inr (h2 ▸ List.mem_cons_self a as)
      · rcases ih _ f h2 with h3 | h3
        · exact Or.inl ((List.dropWhile_sublist _).mem h3)
        · exact Or.inr (List.mem_cons_of_mem a h3)

/-- From the adjacent-disjointness chain and well-formed files, the files
are also strictly ordered by smallest key. -/
theorem chain_smallest_of_disjoint (l : List FileMetaData)
    (hwf : ∀ f ∈ l, wfFile f) (hc : disjointSorted l) :
    List.Chain' (fun a b => ikLt a.smallest b.smallest) l := by
  unfold disjointSorted at hc
  rw [List.chain'_iff_get] at hc ⊢
  intro i hi
  have hcur := hc i hi
  have hmem : l.get ⟨i, by omega⟩ ∈ l := l.get_mem _ _
  have hwfi := hwf _ hmem
  rcases (icmpCmp_le_zero_iff _ _).mp hwfi with h | h
  · exact ikLt_trans h hcur
  · rw [h]; exact hcur

theorem getD_range (n i : Nat) (hi : i < n) : (List.range n).getD i 0 = i := by
  rw [List.getD_eq_getElem?_getD,
    List.getElem?_eq_getElem (by simpa using hi)]
  simp

theorem buildLevels_spec (base : Version) (b : BuilderState) :
    ∀ (ls : List Nat) (out : List (List FileMetaData)),
      buildLevels base b ls = some out →
      out.length = ls.length ∧
        ∀ i, i < ls.length →
          saveLevel (ls.getD i 0) (levelFiles base (ls.getD i 0))
              (b.added.getD (ls.getD i 0) [])
              (b.deleted.getD (ls.getD i 0) []) =
            some (out.getD i []) := by
  intro ls
  induction ls with
  | nil =>
    intro out h
    simp only [buildLevels, Option.some.injEq] at h
    subst h
    exact ⟨rfl, by intro i hi; simp at hi⟩
  | cons level rest ih =>
    intro out h
    simp only [buildLevels] at h
    revert h
    cases h1 : saveLevel level (levelFiles base level)
        (b.added.getD level []) (b.deleted.getD level []) with
    | none => intro h; cases h
    | some fl =>
      cases h2 : buildLevels base b rest with
      | none => intro h; cases h
      | some out2 =>
        intro h
        simp only [Option.some.injEq] at h
        subst h
        obtain ⟨hlen, hspec⟩ := ih out2 h2
        refine ⟨by simp [hlen], ?_⟩
        intro i hi
        cases i with
        | zero => simpa using h1
        | succ j =>
          have := hspec j (by simpa using hi)
          simpa using this

/-- Claim C1: every Version produced by SaveTo has, at each level ≥ 1,
files strictly ordered by smallest key with each file's largest key
strictly below the next file's smallest key (the source aborts on the
non-overlap assertion otherwise, so a produced Version always satisfies
it). -/
theorem claim_C1_saveTo_ordered (base : Version) (b : BuilderState)
    (v2 : Version) (level : Nat)
    (hsave : saveTo base b = some v2) (hlevel : 1 ≤ level)
    (hwfb : ∀ f ∈ levelFiles base level, wfFile f)
    (hwfa : ∀ f ∈ b.added.getD level [], wfFile f) :
    disjointSorted (levelFiles v2 level) ∧
      List.Chain' (fun a c => ikLt a.smallest c.smallest)
        (levelFiles v2 level) := by
  unfold saveTo at hsave
  revert hsave
  cases hbuild : buildLevels base b (List.range kNumLevels) with
  | none => intro hsave; cases hsave
  | some out =>
    intro hsave
    simp only [Option.map_some', Option.some.injEq] at hsave
    subst hsave
    obtain ⟨hlen, hspec⟩ := buildLevels_spec base b _ out hbuild
    rcases Nat.lt_or_ge level kNumLevels with hlt | hge
    · have hsl := hspec level (by simpa using hlt)
      rw [getD_range kNumLevels level hlt] at hsl
      have hfiles : levelFiles ⟨out⟩ level = out.getD level [] := rfl
      have hchain : disjointSorted (out.getD level []) := by
        refine addFiles_chain _ level hlevel _ [] _ hsl ?_
        exact List.chain'_nil
      have hwfall : ∀ f ∈ out.getD level [], wfFile f := by
        intro f hf
        rcases addFiles_subset _ level _ [] _ hsl f hf with h | h
        · simp at h
        · rcases mergeSeq_subset _ _ f h with h2 | h2
          · exact hwfb f h2
          · exact hwfa f h2
      rw [hfiles]
      exact ⟨hchain, chain_smallest_of_disjoint _ hwfall hchain⟩
    · have hnone : levelFiles ⟨out⟩ level = [] := by
        unfold levelFiles
        rw [List.getD_eq_getElem?_getD, List.getElem?_eq_none]
        · rfl
        · simp only [hlen, List.length_range]
          omega
      rw [hnone]
      exact ⟨List.chain'_nil, List.chain'_nil⟩

/-- Concrete base version, builder and result for the C1 witness:
the edit adds one file between the two base files at level 1 and
deletes the base file numbered 12. -/
def c1Base : Version :=
  ⟨[[], [⟨11, 10, ⟨1, 9⟩, ⟨2, 5⟩, 0⟩, ⟨12, 10, ⟨8, 9⟩, ⟨9, 5⟩, 0⟩],
    [], [], [], [], []]⟩

def c1Builder : BuilderState :=
  ⟨[[], [12], [], [], [], [], []],
   [[], [⟨13, 10, ⟨3, 9⟩, ⟨4, 5⟩, 0⟩], [], [], [], [], []]⟩

def c1Result : Version :=
  ⟨[[], [⟨11, 10, ⟨1, 9⟩, ⟨2, 5⟩, 0⟩, ⟨13, 10, ⟨3, 9⟩, ⟨4, 5⟩, 0⟩],
    [], [], [], [], []]⟩

theorem claim_C1_saveTo_ordered_witness :
    saveTo c1Base c1Builder = some c1Result ∧ 1 ≤ 1 ∧
      (∀ f ∈ levelFiles c1Base 1, wfFile f) ∧
      (∀ f ∈ c1Builder.added.getD 1 [], wfFile f) ∧
      (disjointSorted (levelFiles c1Result 1) ∧
        List.Chain' (fun a c => ikLt a.smallest c.smallest)
          (levelFiles c1Result 1)) :=
  ⟨by decide, by decide, by decide, by decide,
    claim_C1_saveTo_ordered c1Base c1Builder c1Result 1 (by decide)
      (by decide) (by decide) (by decide)⟩

/-! ### VersionSet::Finalize -/

/-- The compaction score of one level: level 0 is scored by file count
against kL0_CompactionTrigger, levels ≥ 1 by total bytes against
MaxBytesForLevel. -/
def levelScore (v : Version) (level : Nat) : ℚ :=
  if level = 0 then
    ((levelFiles v 0).length : ℚ) / (kL0_CompactionTrigger : ℚ)
  else
    (totalFileSize (levelFiles v level) : ℚ) / maxBytesForLevel level

/-- The scan of Finalize over the levels, carrying
(best_level, best_score); the score must be strictly greater to replace
the current best. -/
def finalizeLoop (v : Version) : List Nat → Int × ℚ → Int × ℚ
  | [], acc => acc
  | level :: rest, acc =>
    finalizeLoop v rest
      (if acc.2 < levelScore v level then ((level : Int), levelScore v level)
       else acc)

/-- Finalize: compute (compaction_level, compaction_score) over levels
0 .. kNumLevels-2, starting from (-1, -1). -/
def finalize (v : Version) : Int × ℚ :=
  finalizeLoop v (List.range (kNumLevels - 1)) (-1, -1)

theorem finalizeLoop_inv (v : Version) :
    ∀ (l : List Nat) (bl : Nat) (bs : ℚ),
      bs = levelScore v bl →
      List.Pairwise (· < ·) (bl :: l) →
      ∃ rn : Nat,
        (finalizeLoop v l ((bl : Int), bs)).1 = (rn : Int) ∧
        (rn = bl ∨ rn ∈ l) ∧
        (finalizeLoop v l ((bl : Int), bs)).2 = levelScore v rn ∧
        bs ≤ (finalizeLoop v l ((bl : Int), bs)).2 ∧
        ((finalizeLoop v l ((bl : Int), bs)).2 = bs → rn = bl) ∧
        (∀ y ∈ l, levelScore v y ≤ (finalizeLoop v l ((bl : Int), bs)).2 ∧
          (levelScore v y = (finalizeLoop v l ((bl : Int), bs)).2 →
            rn ≤ y)) := by
  intro l
  induction l with
  | nil =>
    intro bl bs hbs _
    exact ⟨bl, rfl, Or.inl rfl, hbs, le_refl _, fun _ => rfl,
      fun y hy => absurd hy (by simp)⟩
  | cons x xs ih =>
    intro bl bs hbs hp
    have hblx : bl < x := (List.pairwise_cons.mp hp).1 x (List.mem_cons_self x xs)
    simp only [finalizeLoop]
    split_ifs with hupd
    · -- new best at x
      have hpx : List.Pairwise (· < ·) (x :: xs) :=
        (List.pairwise_cons.mp hp).2
      obtain ⟨rn, h1, h2, h3, h4, h5, h6⟩ := ih x (levelScore v x) rfl hpx
      refine ⟨rn, h1, ?_, h3, ?_, ?_, ?_⟩
      · rcases h2 with h | h
        · exact Or.inr (h ▸ List.mem_cons_self x xs)
        · exact Or.inr (List.mem_cons_of_mem x h)
      · exact le_of_lt (lt_of_lt_of_le hupd h4)
      · intro hcon
        exfalso
        have := lt_of_lt_of_le hupd h4
        rw [hcon] at this
        exact lt_irrefl bs this
      · intro y hy
        rcases List.mem_cons.mp hy with h | h
        · subst h
          refine ⟨h4, ?_⟩
          intro heq
          have := h5 heq.symm
          omega
        · exact h6 y h
    · -- keep current best
      push_neg at hupd
      have hpx : List.Pairwise (· < ·) (bl :: xs) := by
        refine List.Pairwise.sublist ?_ hp
        exact List.Sublist.cons₂ bl (List.sublist_cons_self x xs)
      obtain ⟨rn, h1, h2, h3, h4, h5, h6⟩ := ih bl bs hbs hpx
      refine ⟨rn, h1, ?_, h3, h4, h5, ?_⟩
      · rcases h2 with h | h
        · exact Or.inl h
        · exact Or.inr (List.mem_cons_of_mem x h)
      · intro y hy
        rcases List.mem_cons.mp hy with h | h
        · subst h
          refine ⟨le_trans hupd h4, ?_⟩
          intro heq
          have hbseq : (finalizeLoop v xs ((bl : Int), bs)).2 = bs :=
            le_antisymm (by rw [← heq]; exact hupd) h4
          have := h5 hbseq
          omega
        · exact h6 y h

/-- Claim C6: Finalize assigns to compaction_level the level, among
0 .. kNumLevels-2, of maximum score (level 0 scored by file count over
kL0_CompactionTrigger, level ≥ 1 by total bytes over MaxBytesForLevel),
with ties resolved in favour of the lowest level. -/
theorem claim_C6_finalize (v : Version) :
    ∃ bln : Nat, (finalize v).1 = (bln : Int) ∧ bln < kNumLevels - 1 ∧
      (finalize v).2 = levelScore v bln ∧
      ∀ level, level < kNumLevels - 1 →
        levelScore v level ≤ levelScore v bln ∧
        (levelScore v level = levelScore v bln → bln ≤ level) := by
  have hrange : List.range (kNumLevels - 1) = [0, 1, 2, 3, 4, 5] := rfl
  have h0 : (-1 : ℚ) < levelScore v 0 := by
    have hnn : (0 : ℚ) ≤ levelScore v 0 := by
      unfold levelScore
      rw [if_pos rfl]
      positivity
    linarith
  have hstep : finalize v = finalizeLoop v [1, 2, 3, 4, 5]
      (((0 : Nat) : Int), levelScore v 0) := by
    unfold finalize
    rw [hrange]
    rw [show finalizeLoop v (0 :: [1, 2, 3, 4, 5]) ((-1 : Int), (-1 : ℚ)) =
        finalizeLoop v [1, 2, 3, 4, 5]
          (if ((-1 : Int), (-1 : ℚ)).2 < levelScore v 0 then
            (((0 : Nat) : Int), levelScore v 0)
          else ((-1 : Int), (-1 : ℚ))) from rfl]
    rw [if_pos h0]
  obtain ⟨rn, h1, h2, h3, h4, h5, h6⟩ :=
    finalizeLoop_inv v [1, 2, 3, 4, 5] 0 (levelScore v 0) rfl (by decide)
  refine ⟨rn, by rw [hstep]; exact h1, ?_, by rw [hstep]; exact h3, ?_⟩
  · rcases h2 with h | h
    · simp [h, kNumLevels]
    · fin_cases h <;> norm_num [kNumLevels]
  · intro level hlevel
    rcases Nat.eq_zero_or_pos level with h | h
    · subst h
      constructor
      · rw [← h3]; exact h4
      · intro heq
        exact le_of_eq (h5 (h3.trans heq.symm))
    · have hmem : level ∈ [1, 2, 3, 4, 5] := by
        simp only [kNumLevels] at hlevel
        interval_cases level <;> simp
      obtain ⟨ha, hb⟩ := h6 level hmem
      constructor
      · rw [← h3]; exact ha
      · intro heq
        exact hb (by rw [heq, h3])

/-! ### Version::Get and seek accounting -/

/-- Status kinds returned by the engine. -/
inductive Status where
  | ok
  | notFoundSt (msg : String)
  | corruption (msg : String)
  | invalidArgument (msg : String)
  | ioError (msg : String)
  deriving DecidableEq, Repr

/-- Outcome stored by the SaveValue callback. -/
inductive SaverState where
  | notFound
  | found
  | deleted
  | corrupt
  deriving DecidableEq, Repr

/-- The visible state of one Get call: `last_file_read` (with its level),
`stats.seek_file` (with its level), and — as instrumentation — the list
of files actually handed to the table cache, in probe order. -/
structure GetState where
  lastFileRead : Option (FileMetaData × Nat)
  seekFile : Option (FileMetaData × Nat)
  probes : List (FileMetaData × Nat)
  deriving DecidableEq, Repr

/-- The seek charge made at the top of the probe loop body: on the second
and later probes, if no file is charged yet, charge the previously read
file. -/
def chargeSeek (st : GetState) : GetState :=
  if st.lastFileRead ≠ none ∧ st.seekFile = none then
    { st with seekFile := st.lastFileRead }
  else st

/-- One iteration of the probe loop on file `f`: charge, then record the
probe and update `last_file_read`. -/
def probeStep (st : GetState) (f : FileMetaData) (level : Nat) : GetState :=
  { chargeSeek st with
    lastFileRead := some (f, level),
    probes := (chargeSeek st).probes ++ [(f, level)] }

/-- The inner loop of Version::Get over this level's candidate files.
The oracle stands for the external `TableCache::Get` together with the
SaveValue callback; `Sum.inl` is an early return from Get, `Sum.inr`
continues with the next level. -/
def probeLoop (oracle : FileMetaData → Status × SaverState) (level : Nat) :
    List FileMetaData → GetState → Sum (Status × GetState) GetState
  | [], st => Sum.inr st
  | f :: rest, st =>
    if (oracle f).1 ≠ Status.ok then
      Sum.inl ((oracle f).1, probeStep st f level)
    else
      match (oracle f).2 with
      | SaverState.notFound => probeLoop oracle level rest (probeStep st f level)
      | SaverState.found => Sum.inl (Status.ok, probeStep st f level)
      | SaverState.deleted =>
        Sum.inl (Status.notFoundSt "", probeStep st f level)
      | SaverState.corrupt =>
        Sum.inl (Status.corruption "corrupted key for ", probeStep st f level)

/-- Insertion sort step for NewestFirst (file number descending). -/
def insertByNumberDesc (f : FileMetaData) :
    List FileMetaData → List FileMetaData
  | [] => [f]
  | g :: rest =>
    if g.number < f.number then f :: g :: rest
    else g :: insertByNumberDesc f rest

/-- Sort by NewestFirst (file number descending). -/
def sortByNumberDesc (l : List FileMetaData) : List FileMetaData :=
  l.foldr insertByNumberDesc []

/-- The candidate files Version::Get probes at one level: at level 0 all
files containing the user key, newest first; at level ≥ 1 the single
file found by binary search, if its range can hold the key. -/
def getLevelFiles (v : Version) (k : InternalKey) (level : Nat) :
    List FileMetaData :=
  if level = 0 then
    sortByNumberDesc ((levelFiles v 0).filter
      (fun f => decide (f.smallest.user ≤ k.user) &&
        decide (k.user ≤ f.largest.user)))
  else
    if findFile (levelFiles v level) k ≥ (levelFiles v level).length then []
    else
      if k.user <
          ((levelFiles v level).getD (findFile (levelFiles v level) k)
            default).smallest.user then []
      else
        [(levelFiles v level).getD (findFile (levelFiles v level) k) default]

/-- The level-by-level search of Version::Get. -/
def getLevels (oracle : FileMetaData → Status × SaverState) (v : Version)
    (k : InternalKey) : List Nat → GetState → Status × GetState
  | [], st => (Status.notFoundSt "", st)
  | level :: rest, st =>
    match probeLoop oracle level (getLevelFiles v k level) st with
    | Sum.inl r => r
    | Sum.inr st2 => getLevels oracle v k rest st2

/-- Version::Get (the value itself is irrelevant to the claims and is
not tracked). -/
def versionGet (oracle : FileMetaData → Status × SaverState) (v : Version)
    (k : InternalKey) : Status × GetState :=
  getLevels oracle v k (List.range kNumLevels) ⟨none, none, []⟩

/-- The seek-accounting invariant: `last_file_read` is the last probed
file, and `stats.seek_file` is unset until the second probe and from
then on holds the first probed file. -/
def seekInv (st : GetState) : Prop :=
  st.lastFileRead = st.probes.getLast? ∧
    st.seekFile =
      (if st.probes.length ≤ 1 then none else st.probes.head?)

theorem chargeSeek_probes (st : GetState) :
    (chargeSeek st).probes = st.probes := by
  unfold chargeSeek
  split_ifs <;> rfl

theorem probeStep_probes (st : GetState) (f : FileMetaData) (level : Nat) :
    (probeStep st f level).probes = st.probes ++ [(f, level)] := by
  show (chargeSeek st).probes ++ [(f, level)] = _
  rw [chargeSeek_probes]

theorem probeStep_inv (st : GetState) (f : FileMetaData) (level : Nat)
    (h : seekInv st) : seekInv (probeStep st f level) := by
  obtain ⟨h1, h2⟩ := h
  constructor
  · show some (f, level) = (probeStep st f level).probes.getLast?
    rw [probeStep_probes, List.getLast?_concat]
  · show (chargeSeek st).seekFile = _
    rw [probeStep_probes]
    cases hp : st.probes with
    | nil =>
      rw [hp] at h1 h2
      simp only [List.getLast?_nil] at h1
      simp only [List.length_nil, Nat.zero_le, if_pos] at h2
      rw [show chargeSeek st = st by unfold chargeSeek; rw [if_neg]; simp [h1]]
      rw [h2]
      simp
    | cons p ps =>
      have hlen : ¬ ((p :: ps) ++ [(f, level)]).length ≤ 1 := by simp
      rw [if_neg hlen]
      rw [show ((p :: ps) ++ [(f, level)]).head? = some p from rfl]
      cases hps : ps with
      | nil =>
        rw [hps] at hp
        rw [hp] at h1 h2
        simp only [List.getLast?_singleton] at h1
        simp only [List.length_singleton, le_refl, if_pos] at h2
        rw [show chargeSeek st = { st with seekFile := st.lastFileRead } by
          unfold chargeSeek; rw [if_pos]; exact ⟨by simp [h1], h2⟩]
        simp [h1]
      | cons q qs =>
        rw [hps] at hp
        rw [hp] at h1 h2
        have hlen2 : ¬ (p :: q :: qs).length ≤ 1 := by simp
        rw [if_neg hlen2] at h2
        simp only [List.head?_cons] at h2
        rw [show chargeSeek st = st by
          unfold chargeSeek; rw [if_neg]; intro hc; rw [h2] at hc;
            cases hc.2]
        exact h2

def resultState : Sum (Status × GetState) GetState → GetState
  | Sum.inl r => r.2
  | Sum.inr st => st

theorem probeLoop_inv (oracle : FileMetaData → Status × SaverState)
    (level : Nat) :
    ∀ (files : List FileMetaData) (st : GetState), seekInv st →
      seekInv (resultState (probeLoop oracle level files st)) := by
  intro files
  induction files with
  | nil => intro st h; exact h
  | cons f rest ih =>
    intro st h
    simp only [probeLoop]
    split_ifs with hs
    · exact probeStep_inv st f level h
    · cases (oracle f).2 with
      | notFound => exact ih _ (probeStep_inv st f level h)
      | found => exact probeStep_inv st f level h
      | deleted => exact probeStep_inv st f level h
      | corrupt => exact probeStep_inv st f level h

theorem getLevels_inv (oracle : FileMetaData → Status × SaverState)
    (v : Version) (k : InternalKey) :
    ∀ (ls : List Nat) (st : GetState), seekInv st →
      seekInv (getLevels oracle v k ls st).2 := by
  intro ls
  induction ls with
  | nil => intro st h; exact h
  | cons level rest ih =>
    intro st h
    simp only [getLevels]
    cases hp : probeLoop oracle level (getLevelFiles v k level) st with
    | inl r =>
      have := probeLoop_inv oracle level (getLevelFiles v k level) st h
      rw [hp] at this
      exact this
    | inr st2 =>
      have := probeLoop_inv oracle level (getLevelFiles v k level) st h
      rw [hp] at this
      exact ih st2 this

/-- Claim C7: in one Version::Get call, if at most one file is probed
then stats.seek_file stays unset, and as soon as a second file is probed
stats.seek_file holds the first probed file together with its level, so
at most one file per call can be charged a seek. -/
theorem claim_C7_get_seek_charge
    (oracle : FileMetaData → Status × SaverState) (v : Version)
    (k : InternalKey) :
    (versionGet oracle v k).2.seekFile =
      (if (versionGet oracle v k).2.probes.length ≤ 1 then none
       else (versionGet oracle v k).2.probes.head?) :=
  (getLevels_inv oracle v k (List.range kNumLevels) ⟨none, none, []⟩
    ⟨rfl, rfl⟩).2

/-! ### Compaction and SetupOtherInputs -/

/-- A Compaction plan. -/
structure Compaction where
  level : Nat
  inputs0 : List FileMetaData
  inputs1 : List FileMetaData
  grandparents : List FileMetaData
  grandparentIndex : Nat
  seenKey : Bool
  overlappedBytes : Nat
  maxOutputFileSize : Nat
  deriving DecidableEq, Repr

/-- Compaction::Compaction: fresh compaction at a level. -/
def mkCompaction (level : Nat) : Compaction :=
  ⟨level, [], [], [], 0, false, 0, maxFileSizeForLevel level⟩

/-- GetRange: smallest and largest internal key over the inputs (the
C++ asserts the list is non-empty; on the empty list the cleared keys
are returned, modelled by `default`). -/
def getRange (inputs : List FileMetaData) : InternalKey × InternalKey :=
  match inputs with
  | [] => (default, default)
  | f :: rest =>
    rest.foldl
      (fun acc g =>
        (if icmpCmp g.smallest acc.1 < 0 then g.smallest else acc.1,
         if icmpCmp g.largest acc.2 > 0 then g.largest else acc.2))
      (f.smallest, f.largest)

/-- GetRange2: range of the concatenation of two input lists. -/
def getRange2 (inputs1 inputs2 : List FileMetaData) :
    InternalKey × InternalKey :=
  getRange (inputs1 ++ inputs2)

/-- The (inputs0, inputs1, range, whole-range) selection made inside
SetupOtherInputs. -/
structure SOIStep where
  i0 : List FileMetaData
  i1 : List FileMetaData
  small : InternalKey
  large : InternalKey
  allStart : InternalKey
  allLimit : InternalKey
  deriving DecidableEq, Repr

/-- VersionSet::SetupOtherInputs: pick inputs[1] at level+1, try to
expand inputs[0] without changing inputs[1], record grandparents, and
return the new compact pointer (the largest key of the chosen range). -/
def setupOtherInputs (v : Version) (c : Compaction) :
    Compaction × InternalKey :=
  let sl := getRange c.inputs0
  let inputs1 :=
    getOverlappingInputs v (c.level + 1) (some sl.1) (some sl.2)
  let all := getRange2 c.inputs0 inputs1
  let step : SOIStep :=
    if inputs1.isEmpty then
      ⟨c.inputs0, inputs1, sl.1, sl.2, all.1, all.2⟩
    else
      let expanded0 :=
        getOverlappingInputs v c.level (some all.1) (some all.2)
      if c.inputs0.length < expanded0.length ∧
          totalFileSize inputs1 + totalFileSize expanded0 <
            kExpandedCompactionByteSizeLimit then
        let nr := getRange expanded0
        let expanded1 :=
          getOverlappingInputs v (c.level + 1) (some nr.1) (some nr.2)
        if expanded1.length = inputs1.length then
          ⟨expanded0, expanded1, nr.1, nr.2,
            (getRange2 expanded0 expanded1).1,
            (getRange2 expanded0 expanded1).2⟩
        else ⟨c.inputs0, inputs1, sl.1, sl.2, all.1, all.2⟩
      else ⟨c.inputs0, inputs1, sl.1, sl.2, all.1, all.2⟩
  let grandparents :=
    if c.level + 2 < kNumLevels then
      getOverlappingInputs v (c.level + 2) (some step.allStart)
        (some step.allLimit)
    else c.grandparents
  ({ c with
      inputs0 := step.i0,
      inputs1 := step.i1,
      grandparents := grandparents },
   step.large)

/-- inputs[1] as computed by SetupOtherInputs before any expansion. -/
def soiInputs1 (v : Version) (c : Compaction) : List FileMetaData :=
  getOverlappingInputs v (c.level + 1) (some (getRange c.inputs0).1)
    (some (getRange c.inputs0).2)

/-- expanded0: the files at the compaction's level overlapping the
combined range of inputs[0] and inputs[1]. -/
def soiExpanded0 (v : Version) (c : Compaction) : List FileMetaData :=
  getOverlappingInputs v c.level
    (some (getRange2 c.inputs0 (soiInputs1 v c)).1)
    (some (getRange2 c.inputs0 (soiInputs1 v c)).2)

/-- expanded1: the files at level+1 overlapping expanded0's range. -/
def soiExpanded1 (v : Version) (c : Compaction) : List FileMetaData :=
  getOverlappingInputs v (c.level + 1)
    (some (getRange (soiExpanded0 v c)).1)
    (some (getRange (soiExpanded0 v c)).2)

/-- The exact condition under which SetupOtherInputs adopts the
expansion: inputs[1] nonempty, expanded0 strictly larger than inputs[0],
the byte bound, and expanded1 of the same size as inputs[1]. -/
def soiExpandCond (v : Version) (c : Compaction) : Prop :=
  soiInputs1 v c ≠ [] ∧
    (c.inputs0.length < (soiExpanded0 v c).length ∧
      totalFileSize (soiInputs1 v c) + totalFileSize (soiExpanded0 v c) <
        kExpandedCompactionByteSizeLimit) ∧
    (soiExpanded1 v c).length = (soiInputs1 v c).length

instance (v : Version) (c : Compaction) : Decidable (soiExpandCond v c) :=
  inferInstanceAs (Decidable (_ ∧ _))

/-- Claim C5 (amended): the expansion is adopted exactly when inputs[1]
is nonempty, |expanded0| > |inputs[0]|, the byte-size bound holds, and
|expanded1| = |inputs[1]|; otherwise inputs[0] stays as picked and
inputs[1] is the unexpanded overlap set. -/
theorem claim_C5_setupOtherInputs_expansion (v : Version) (c : Compaction) :
    (setupOtherInputs v c).1.inputs0 =
      (if soiExpandCond v c then soiExpanded0 v c else c.inputs0) ∧
    (setupOtherInputs v c).1.inputs1 =
      (if soiExpandCond v c then soiExpanded1 v c else soiInputs1 v c) := by
  unfold setupOtherInputs soiExpandCond soiExpanded1 soiExpanded0 soiInputs1
  by_cases h1 : (getOverlappingInputs v (c.level + 1)
      (some (getRange c.inputs0).1) (some (getRange c.inputs0).2)).isEmpty
  · have hnil := List.isEmpty_iff.mp h1
    rw [if_neg (by rw [hnil]; intro hcon; exact hcon.1 rfl),
      if_neg (by rw [hnil]; intro hcon; exact hcon.1 rfl)]
    simp only [h1, if_true]
    exact ⟨trivial, trivial⟩
  · have hne : getOverlappingInputs v (c.level + 1)
        (some (getRange c.inputs0).1) (some (getRange c.inputs0).2) ≠ [] :=
      fun hcon => h1 (List.isEmpty_iff.mpr hcon)
    simp only [h1, Bool.false_eq_true, if_false]
    by_cases h2 : c.inputs0.length <
        (getOverlappingInputs v c.level
          (some (getRange2 c.inputs0
            (getOverlappingInputs v (c.level + 1)
              (some (getRange c.inputs0).1)
              (some (getRange c.inputs0).2))).1)
          (some (getRange2 c.inputs0
            (getOverlappingInputs v (c.level + 1)
              (some (getRange c.inputs0).1)
              (some (getRange c.inputs0).2))).2)).length ∧
        totalFileSize (getOverlappingInputs v (c.level + 1)
            (some (getRange c.inputs0).1) (some (getRange c.inputs0).2)) +
          totalFileSize (getOverlappingInputs v c.level
            (some (getRange2 c.inputs0
              (getOverlappingInputs v (c.level + 1)
                (some (getRange c.inputs0).1)
                (some (getRange c.inputs0).2))).1)
            (some (getRange2 c.inputs0
              (getOverlappingInputs v (c.level + 1)
                (some (getRange c.inputs0).1)
                (some (getRange c.inputs0).2))).2)) <
          kExpandedCompactionByteSizeLimit
    · rw [if_pos h2]
      by_cases h3 : (getOverlappingInputs v (c.level + 1)
          (some (getRange (getOverlappingInputs v c.level
            (some (getRange2 c.inputs0
              (getOverlappingInputs v (c.level + 1)
                (some (getRange c.inputs0).1)
                (some (getRange c.inputs0).2))).1)
            (some (getRange2 c.inputs0
              (getOverlappingInputs v (c.level + 1)
                (some (getRange c.inputs0).1)
                (some (getRange c.inputs0).2))).2))).1)
          (some (getRange (getOverlappingInputs v c.level
            (some (getRange2 c.inputs0
              (getOverlappingInputs v (c.level + 1)
                (some (getRange c.inputs0).1)
                (some (getRange c.inputs0).2))).1)
            (some (getRange2 c.inputs0
              (getOverlappingInputs v (c.level + 1)
                (some (getRange c.inputs0).1)
                (some (getRange c.inputs0).2))).2))).2)).length =
          (getOverlappingInputs v (c.level + 1)
            (some (getRange c.inputs0).1)
            (some (getRange c.inputs0).2)).length
      · rw [if_pos h3, if_pos ⟨hne, h2, h3⟩, if_pos ⟨hne, h2, h3⟩]
        exact ⟨rfl, rfl⟩
      · rw [if_neg h3, if_neg (fun hc => h3 hc.2.2),
          if_neg (fun hc => h3 hc.2.2)]
        exact ⟨rfl, rfl⟩
    · rw [if_neg h2, if_neg (fun hc => h2 hc.2.1),
        if_neg (fun hc => h2 hc.2.1)]
      exact ⟨rfl, rfl⟩

/-- Version for the C5 counterexample: two level-1 files sharing the
boundary user key 2 (disjoint as internal keys), level 2 empty. -/
def c5Version : Version :=
  ⟨[[], [⟨1, 100, ⟨1, 50⟩, ⟨2, 40⟩, 0⟩, ⟨2, 100, ⟨2, 30⟩, ⟨3, 20⟩, 0⟩],
    [], [], [], [], []]⟩

/-- A level-1 compaction that picked the first file only. -/
def c5Compaction : Compaction :=
  { mkCompaction 1 with inputs0 := [⟨1, 100, ⟨1, 50⟩, ⟨2, 40⟩, 0⟩] }

/-- Counterexample to C5 as stated: all three stated conditions hold
(|expanded0| > |inputs0|, the byte bound, |expanded1| = |inputs1|), yet
the expansion is not adopted, because inputs[1] is empty and the source
skips the whole expansion attempt in that case. -/
theorem claim_C5_counterexample :
    (c5Compaction.inputs0.length <
        (soiExpanded0 c5Version c5Compaction).length ∧
      totalFileSize (soiInputs1 c5Version c5Compaction) +
          totalFileSize (soiExpanded0 c5Version c5Compaction) <
        kExpandedCompactionByteSizeLimit ∧
      (soiExpanded1 c5Version c5Compaction).length =
        (soiInputs1 c5Version c5Compaction).length) ∧
    (setupOtherInputs c5Version c5Compaction).1.inputs0 ≠
      soiExpanded0 c5Version c5Compaction ∧
    (setupOtherInputs c5Version c5Compaction).1.inputs0 =
      c5Compaction.inputs0 := by
  decide

/-! ### Compaction::ShouldStopBefore -/

/-- The scan loop of ShouldStopBefore over the grandparent files after
the current grandparent index: returns how many files were passed and
the resulting overlapped byte count (each skipped file's size is added
only when seen_key is already set). -/
def advanceGrandparents (key : InternalKey) :
    List FileMetaData → Bool → Nat → Nat × Nat
  | [], _, ob => (0, ob)
  | g :: rest, seen, ob =>
    if icmpCmp key g.largest > 0 then
      ((advanceGrandparents key rest seen
        (if seen then ob + g.file_size else ob)).1 + 1,
       (advanceGrandparents key rest seen
        (if seen then ob + g.file_size else ob)).2)
    else (0, ob)

/-- Compaction::ShouldStopBefore: advance the grandparent index past
files wholly before the key, accumulate their sizes once a key has been
seen, set seen_key, and cut the output when the accumulated overlap
exceeds kMaxGrandParentOverlapBytes. -/
def shouldStopBefore (c : Compaction) (key : InternalKey) :
    Bool × Compaction :=
  let r := advanceGrandparents key (c.grandparents.drop c.grandparentIndex)
    c.seenKey c.overlappedBytes
  let c2 := { c with
    grandparentIndex := c.grandparentIndex + r.1,
    seenKey := true,
    overlappedBytes := r.2 }
  if c2.overlappedBytes > kMaxGrandParentOverlapBytes then
    (true, { c2 with overlappedBytes := 0 })
  else (false, c2)

theorem advanceGrandparents_not_seen (key : InternalKey) :
    ∀ (l : List FileMetaData) (ob : Nat),
      (advanceGrandparents key l false ob).2 = ob := by
  intro l
  induction l with
  | nil => intro ob; rfl
  | cons g rest ih =>
    intro ob
    rw [show advanceGrandparents key (g :: rest) false ob =
      (if icmpCmp key g.largest > 0 then
        ((advanceGrandparents key rest false ob).1 + 1,
         (advanceGrandparents key rest false ob).2)
      else (0, ob)) from rfl]
    split_ifs with h
    · simpa using ih ob
    · rfl

/-- Claim C9: on a freshly constructed Compaction (seen_key false,
overlapped_bytes 0, whatever inputs and grandparents SetupOtherInputs
filled in), the first call to ShouldStopBefore returns false. -/
theorem claim_C9_first_shouldStopBefore_false (level : Nat)
    (i0 i1 gps : List FileMetaData) (key : InternalKey) :
    (shouldStopBefore
      { mkCompaction level with
          inputs0 := i0, inputs1 := i1, grandparents := gps } key).1 =
      false := by
  unfold shouldStopBefore
  have hz := advanceGrandparents_not_seen key (gps.drop 0) 0
  simp only [mkCompaction]
  rw [if_neg]
  simp only [hz]
  unfold kMaxGrandParentOverlapBytes kTargetFileSize
  omega

/-! ### VersionSet::CompactRange -/

/-- The truncation loop of CompactRange: accumulate file sizes and cut
the list just after the first file at which the running total reaches
MaxFileSizeForLevel (the source keeps that file: `resize(i + 1)`). -/
def truncateInputs (limit : Nat) :
    List FileMetaData → Nat → List FileMetaData
  | [], _ => []
  | f :: rest, total =>
    if limit ≤ total + f.file_size then [f]
    else f :: truncateInputs limit rest (total + f.file_size)

/-- The input list CompactRange selects: the overlapping files,
truncated by total size (note: at every level, including level 0). -/
def compactRangeInputs (v : Version) (level : Nat)
    (bk ek : Option InternalKey) : List FileMetaData :=
  truncateInputs (maxFileSizeForLevel level)
    (getOverlappingInputs v level bk ek) 0

/-- VersionSet::CompactRange: none when no file overlaps; otherwise a
compaction over the truncated input list, completed by
SetupOtherInputs. -/
def compactRange (v : Version) (level : Nat)
    (bk ek : Option InternalKey) : Option (Compaction × InternalKey) :=
  if (getOverlappingInputs v level bk ek).isEmpty then none
  else
    some (setupOtherInputs v
      { mkCompaction level with
          inputs0 := compactRangeInputs v level bk ek })

theorem truncateInputs_spec (limit : Nat) :
    ∀ (l : List FileMetaData) (total : Nat),
      ∃ t, l = truncateInputs limit l total ++ t ∧
        (l ≠ [] → truncateInputs limit l total ≠ []) ∧
        (t ≠ [] → limit ≤ total + totalFileSize (truncateInputs limit l total)) ∧
        (∀ i, i + 1 < (truncateInputs limit l total).length →
          total + totalFileSize (l.take (i + 1)) < limit) := by
  intro l
  induction l with
  | nil =>
    intro total
    exact ⟨[], rfl, fun h => absurd rfl h, fun h => absurd rfl h,
      by intro i hi; simp [truncateInputs] at hi⟩
  | cons f rest ih =>
    intro total
    simp only [truncateInputs]
    split_ifs with hcross
    · refine ⟨rest, rfl, fun _ => by simp, fun _ => ?_, ?_⟩
      · simpa [totalFileSize] using hcross
      · intro i hi
        simp at hi
    · obtain ⟨t, ht1, ht2, ht3, ht4⟩ := ih (total + f.file_size)
      refine ⟨t, ?_, fun _ => by simp, ?_, ?_⟩
      · conv_lhs => rw [ht1]
        rw [List.cons_append]
      · intro htne
        have h5 := ht3 htne
        simp only [totalFileSize, List.map_cons, List.sum_cons] at h5 ⊢
        omega
      · intro i hi
        cases i with
        | zero =>
          simp only [List.take_succ_cons, List.take_zero, totalFileSize,
            List.map_cons, List.map_nil, List.sum_cons, List.sum_nil]
          omega
        | succ j =>
          have hj := ht4 j (by simpa using hi)
          simp only [List.take_succ_cons, totalFileSize, List.map_cons,
            List.sum_cons]
          simp only [totalFileSize] at hj
          omega

/-- Claim C2 (amended): at every level — including level 0 — the
selected input list is the prefix of the overlapping-file list cut
immediately after the first file at which the cumulative size reaches
MaxFileSizeForLevel(level); in particular every proper prefix below the
cut stays under the limit, a nonempty overlap set is never truncated to
empty, and truncation only happens once the total has reached the
limit. -/
theorem claim_C2_compactRange_truncation (v : Version) (level : Nat)
    (bk ek : Option InternalKey) :
    ∃ t, getOverlappingInputs v level bk ek =
        compactRangeInputs v level bk ek ++ t ∧
      (getOverlappingInputs v level bk ek ≠ [] →
        compactRangeInputs v level bk ek ≠ []) ∧
      (t ≠ [] → maxFileSizeForLevel level ≤
        totalFileSize (compactRangeInputs v level bk ek)) ∧
      (∀ i, i + 1 < (compactRangeInputs v level bk ek).length →
        totalFileSize ((getOverlappingInputs v level bk ek).take (i + 1)) <
          maxFileSizeForLevel level) := by
  obtain ⟨t, h1, h2, h3, h4⟩ :=
    truncateInputs_spec (maxFileSizeForLevel level)
      (getOverlappingInputs v level bk ek) 0
  exact ⟨t, h1, h2, fun ht => by simpa using h3 ht,
    fun i hi => by simpa using h4 i hi⟩

/-- Version for the C2 counterexample at level 0: two overlapping
level-0 files whose first file alone already reaches the cap. -/
def c2VersionA : Version :=
  ⟨[[⟨1, 2097152, ⟨1, 9⟩, ⟨4, 5⟩, 0⟩, ⟨2, 100, ⟨2, 9⟩, ⟨3, 5⟩, 0⟩],
    [], [], [], [], [], []]⟩

/-- Version for the C2 counterexample at level 1: one file bigger than
the cap. -/
def c2VersionB : Version :=
  ⟨[[], [⟨3, 3145728, ⟨1, 9⟩, ⟨4, 5⟩, 0⟩], [], [], [], [], []]⟩

/-- Counterexample to C2 as stated: at level 0 the unbounded CompactRange
selects only one of the two overlapping files (the cap is applied at
level 0 too), and at level 1 the selected list's total size exceeds
MaxFileSizeForLevel(1) (the file that crosses the cap is kept). -/
theorem claim_C2_counterexample :
    ((getOverlappingInputs c2VersionA 0 none none).length = 2 ∧
      (compactRange c2VersionA 0 none none).map
        (fun r => r.1.inputs0.length) = some 1) ∧
    ((compactRange c2VersionB 1 none none).map
        (fun r => totalFileSize r.1.inputs0) = some 3145728 ∧
      maxFileSizeForLevel 1 < 3145728) := by
  decide

theorem gOIPass_all_skip (level : Nat) (lo hi : Option Nat) :
    ∀ l : List FileMetaData,
      (∀ f ∈ l, fileBeforeRange lo f = true ∨ fileAfterRange hi f = true) →
      gOIPass level lo hi l = Sum.inr [] := by
  intro l
  induction l with
  | nil => intro _; rfl
  | cons f rest ih =>
    intro h
    have hrest := ih (fun g hg => h g (List.mem_cons_of_mem _ hg))
    simp only [gOIPass]
    rcases h f (List.mem_cons_self f rest) with h1 | h1
    · rw [if_pos h1]
      exact hrest
    · by_cases h2 : fileBeforeRange lo f = true
      · rw [if_pos h2]
        exact hrest
      · rw [if_neg h2, if_pos h1]
        exact hrest

/-- Claim C10: CompactRange returns no compaction when no file at the
level overlaps the (possibly unbounded) range. -/
theorem claim_C10_compactRange_none (v : Version) (level : Nat)
    (bk ek : Option InternalKey)
    (h : ∀ f ∈ levelFiles v level,
      fileBeforeRange (bk.map (·.user)) f = true ∨
      fileAfterRange (ek.map (·.user)) f = true) :
    compactRange v level bk ek = none := by
  have hpass := gOIPass_all_skip level (bk.map (·.user)) (ek.map (·.user))
    (levelFiles v level) h
  have hempty : getOverlappingInputs v level bk ek = [] := by
    unfold getOverlappingInputs
    simp only [gOIGo]
    rw [hpass]
  unfold compactRange
  rw [hempty]
  rfl

/-- Version and range for the C10 witness: a level-1 file entirely above
the queried range. -/
def c10Version : Version :=
  ⟨[[], [⟨7, 10, ⟨10, 9⟩, ⟨20, 5⟩, 0⟩], [], [], [], [], []]⟩

theorem claim_C10_compactRange_none_witness :
    (∀ f ∈ levelFiles c10Version 1,
      fileBeforeRange ((some (⟨1, 9⟩ : InternalKey)).map (·.user)) f = true ∨
      fileAfterRange ((some (⟨5, 5⟩ : InternalKey)).map (·.user)) f = true) ∧
    compactRange c10Version 1 (some ⟨1, 9⟩) (some ⟨5, 5⟩) = none :=
  ⟨by decide,
    claim_C10_compactRange_none c10Version 1 (some ⟨1, 9⟩) (some ⟨5, 5⟩)
      (by decide)⟩

/-! ### VersionEdit and VersionSet::Recover -/

/-- A decoded Version Edit record. -/
structure VersionEdit where
  comparator : Option String := none
  log_number : Option Nat := none
  prev_log_number : Option Nat := none
  next_file_number : Option Nat := none
  last_sequence : Option Nat := none
  compact_pointers : List (Nat × InternalKey) := []
  deleted_files : List (Nat × Nat) := []
  new_files : List (Nat × FileMetaData) := []
  deriving DecidableEq, Repr

/-- Record one deleted file number in the builder (set insertion). -/
def builderDelete (b : BuilderState) (level number : Nat) : BuilderState :=
  { b with
    deleted := b.deleted.set level
      (if number ∈ b.deleted.getD level [] then b.deleted.getD level []
       else number :: b.deleted.getD level []) }

/-- Record one added file in the builder: allowed_seeks is file_size/16384
raised to at least 100, the number is erased from the level's deleted
set, and the file joins the level's added set. -/
def builderAddFile (b : BuilderState) (level : Nat) (f : FileMetaData) :
    BuilderState :=
  { b with
    deleted := b.deleted.set level
      ((b.deleted.getD level []).filter
        (fun n => n ≠ f.number)),
    added := b.added.set level
      (addedInsert
        { f with allowed_seeks :=
            if f.file_size / 16384 < 100 then 100 else f.file_size / 16384 }
        (b.added.getD level [])) }

/-- VersionSet::Builder::Apply: record compaction pointers into the
version set's per-level cursor, then deletions, then additions. -/
def applyEdit (st : BuilderState × List (Option InternalKey))
    (e : VersionEdit) : BuilderState × List (Option InternalKey) :=
  (e.new_files.foldl (fun b p => builderAddFile b p.1 p.2)
     (e.deleted_files.foldl (fun b p => builderDelete b p.1 p.2) st.1),
   e.compact_pointers.foldl (fun acc p => acc.set p.1 (some p.2)) st.2)

/-- The have/value flags tracked by the Recover read loop. -/
structure RecFlags where
  haveLog : Bool := false
  havePrevLog : Bool := false
  haveNext : Bool := false
  haveLastSeq : Bool := false
  logNumber : Nat := 0
  prevLogNumber : Nat := 0
  nextFile : Nat := 0
  lastSequence : Nat := 0
  deriving DecidableEq, Repr

/-- Flag updates performed for each decoded edit (unconditionally, even
when the comparator check failed on this edit). -/
def updateFlags (fl : RecFlags) (e : VersionEdit) : RecFlags :=
  let fl1 := match e.log_number with
    | some n => { fl with logNumber := n, haveLog := true }
    | none => fl
  let fl2 := match e.prev_log_number with
    | some n => { fl1 with prevLogNumber := n, havePrevLog := true }
    | none => fl1
  let fl3 := match e.next_file_number with
    | some n => { fl2 with nextFile := n, haveNext := true }
    | none => fl2
  match e.last_sequence with
  | some n => { fl3 with lastSequence := n, haveLastSeq := true }
  | none => fl3

/-- The comparator-name validation of one edit. -/
def comparatorOk (cmpName : String) (e : VersionEdit) : Bool :=
  match e.comparator with
  | some c => c == cmpName
  | none => true

/-- The read loop of Recover over the decoded manifest records: as long
as the status is ok, validate the comparator, apply the edit to the
builder, and record the housekeeping flags. -/
def recoverLoop (cmpName : String) :
    List VersionEdit → Status →
    BuilderState × List (Option InternalKey) → RecFlags →
    Status × (BuilderState × List (Option InternalKey)) × RecFlags
  | [], s, st, fl => (s, st, fl)
  | e :: rest, s, st, fl =>
    if s = Status.ok then
      recoverLoop cmpName rest
        (if comparatorOk cmpName e then Status.ok
         else Status.invalidArgument "comparator does not match")
        (if comparatorOk cmpName e then applyEdit st e else st)
        (updateFlags fl e)
    else (s, st, fl)

/-- Builder and compaction-pointer state at the start of Recover. -/
def recoverInit : BuilderState × List (Option InternalKey) :=
  (⟨List.replicate kNumLevels [], List.replicate kNumLevels []⟩,
   List.replicate kNumLevels none)

/-- The post-loop part of Recover: validate the presence of the
next-file, log-number and last-sequence records, then SaveTo and
install the recovered Version (file-number counters are not tracked
here). -/
def recoverFinish (base : Version)
    (r : Status × (BuilderState × List (Option InternalKey)) × RecFlags) :
    Option (Status × Option Version) :=
  if r.1 = Status.ok then
    if r.2.2.haveNext = false then
      some (Status.corruption "no meta-nextfile entry in descriptor", none)
    else if r.2.2.haveLog = false then
      some (Status.corruption "no meta-lognumber entry in descriptor", none)
    else if r.2.2.haveLastSeq = false then
      some (Status.corruption "no last-sequence-number entry in descriptor",
        none)
    else
      match saveTo base r.2.1.1 with
      | some v2 => some (Status.ok, some v2)
      | none => none
  else some (r.1, none)

/-- VersionSet::Recover on an already-decoded record stream: `none`
models the SaveTo abort; otherwise the status together with the
installed Version, if any. -/
def recover (cmpName : String) (base : Version)
    (edits : List VersionEdit) : Option (Status × Option Version) :=
  recoverFinish base (recoverLoop cmpName edits Status.ok recoverInit {})

theorem updateFlags_haveNext (fl : RecFlags) (e : VersionEdit) :
    (updateFlags fl e).haveNext =
      (fl.haveNext || e.next_file_number.isSome) := by
  unfold updateFlags
  cases e.log_number <;> cases e.prev_log_number <;>
    cases e.next_file_number <;> cases e.last_sequence <;> simp

theorem updateFlags_haveLog (fl : RecFlags) (e : VersionEdit) :
    (updateFlags fl e).haveLog = (fl.haveLog || e.log_number.isSome) := by
  unfold updateFlags
  cases e.log_number <;> cases e.prev_log_number <;>
    cases e.next_file_number <;> cases e.last_sequence <;> simp

theorem updateFlags_haveLastSeq (fl : RecFlags) (e : VersionEdit) :
    (updateFlags fl e).haveLastSeq =
      (fl.haveLastSeq || e.last_sequence.isSome) := by
  unfold updateFlags
  cases e.log_number <;> cases e.prev_log_number <;>
    cases e.next_file_number <;> cases e.last_sequence <;> simp

theorem recoverLoop_ok (cmpName : String) :
    ∀ (edits : List VersionEdit)
      (st : BuilderState × List (Option InternalKey)) (fl : RecFlags),
      (∀ e ∈ edits, comparatorOk cmpName e = true) →
      (recoverLoop cmpName edits Status.ok st fl).1 = Status.ok ∧
      (recoverLoop cmpName edits Status.ok st fl).2.2.haveNext =
        (fl.haveNext || edits.any (fun e => e.next_file_number.isSome)) ∧
      (recoverLoop cmpName edits Status.ok st fl).2.2.haveLog =
        (fl.haveLog || edits.any (fun e => e.log_number.isSome)) ∧
      (recoverLoop cmpName edits Status.ok st fl).2.2.haveLastSeq =
        (fl.haveLastSeq || edits.any (fun e => e.last_sequence.isSome)) := by
  intro edits
  induction edits with
  | nil =>
    intro st fl _
    exact ⟨rfl, by simp [recoverLoop], by simp [recoverLoop],
      by simp [recoverLoop]⟩
  | cons e rest ih =>
    intro st fl h
    have hok := h e (List.mem_cons_self e rest)
    simp only [recoverLoop, if_pos rfl, hok, if_true]
    obtain ⟨h1, h2, h3, h4⟩ :=
      ih (applyEdit st e) (updateFlags fl e)
        (fun g hg => h g (List.mem_cons_of_mem _ hg))
    refine ⟨h1, ?_, ?_, ?_⟩
    · rw [h2, updateFlags_haveNext]
      simp [Bool.or_assoc]
    · rw [h3, updateFlags_haveLog]
      simp [Bool.or_assoc]
    · rw [h4, updateFlags_haveLastSeq]
      simp [Bool.or_assoc]

/-- Claim C8: when the manifest stream decodes cleanly (and matches the
configured comparator) but lacks a next-file-number, log-number or
last-sequence record, Recover returns a Corruption status and installs
no Version. -/
theorem claim_C8_recover_missing_records (cmpName : String)
    (base : Version) (edits : List VersionEdit)
    (hcmp : ∀ e ∈ edits, comparatorOk cmpName e = true)
    (hmiss : (∀ e ∈ edits, e.next_file_number = none) ∨
      (∀ e ∈ edits, e.log_number = none) ∨
      (∀ e ∈ edits, e.last_sequence = none)) :
    ∃ msg, recover cmpName base edits =
      some (Status.corruption msg, none) := by
  obtain ⟨hok, hnext, hlog, hseq⟩ :=
    recoverLoop_ok cmpName edits recoverInit {} hcmp
  unfold recover recoverFinish
  rw [if_pos hok]
  by_cases hn : (recoverLoop cmpName edits Status.ok recoverInit
      {}).2.2.haveNext = false
  · rw [if_pos hn]
    exact ⟨_, rfl⟩
  · rw [if_neg hn]
    by_cases hl : (recoverLoop cmpName edits Status.ok recoverInit
        {}).2.2.haveLog = false
    · rw [if_pos hl]
      exact ⟨_, rfl⟩
    · rw [if_neg hl]
      have hs : (recoverLoop cmpName edits Status.ok recoverInit
          {}).2.2.haveLastSeq = false := by
        rcases hmiss with hm | hm | hm
        · exfalso
          apply hn
          rw [hnext]
          simp only [Bool.false_or]
          rw [List.any_eq_false]
          intro e he
          rw [hm e he]
          simp
        · exfalso
          apply hl
          rw [hlog]
          simp only [Bool.false_or]
          rw [List.any_eq_false]
          intro e he
          rw [hm e he]
          simp
        · rw [hseq]
          simp only [Bool.false_or]
          rw [List.any_eq_false]
          intro e he
          rw [hm e he]
          simp
      rw [if_pos hs]
      exact ⟨_, rfl⟩

/-- The empty current Version present when Recover starts. -/
def emptyVersion : Version := ⟨List.replicate kNumLevels []⟩

theorem claim_C8_recover_missing_records_witness :
    (∀ e ∈ ([] : List VersionEdit),
      comparatorOk "leveldb.BytewiseComparator" e = true) ∧
    ∃ msg, recover "leveldb.BytewiseComparator" emptyVersion [] =
      some (Status.corruption msg, none) :=
  ⟨by simp,
    claim_C8_recover_missing_records "leveldb.BytewiseComparator"
      emptyVersion [] (by simp) (Or.inl (by simp))⟩

end VersionSetModel
